import Mathlib

/-!
Shallow embedding of the cryptomath decimal value engine
(src/cryptomath2.h and the arithmetic core of
src/src/crypto_decimal_extension.c) together with proofs about the
engine's parser, formatter, validator, registry lookup and division
rounding policies.

Conventions of the embedding:
* C strings are `List Char`; the registry's symbol fields are `String`
  (compared with exact equality, as `strcmp` does).
* GMP integers (`mpz_t`) are `Int`.  `uint64_t` arithmetic is `Nat`
  arithmetic reduced modulo `2 ^ 64` where the C multiplies.
* Every call site in the repository hands GMP a freshly initialized
  (zero) destination; GMP's `mpz_set_str` leaves the destination
  untouched when it rejects the string, so the model returns 0 there.
-/

namespace Cryptomath

/-- Enumeration of supported cryptocurrencies (`crypto_type_t`),
including the `CRYPTO_COUNT` sentinel kept as the last entry. -/
inductive crypto_type_t where
  | CRYPTO_BITCOIN
  | CRYPTO_ETHEREUM
  | CRYPTO_BINANCE_COIN
  | CRYPTO_SOLANA
  | CRYPTO_XRP
  | CRYPTO_CARDANO
  | CRYPTO_AVALANCHE
  | CRYPTO_DOGECOIN
  | CRYPTO_POLKADOT
  | CRYPTO_POLYGON
  | CRYPTO_USDC
  | CRYPTO_USDT
  | CRYPTO_FLARE
  | CRYPTO_SONGBIRD
  | CRYPTO_WFLR
  | CRYPTO_WSGB
  | CRYPTO_COUNT
  deriving DecidableEq

/-- Enumeration of denominations (`crypto_denom_t`), including the
`DENOM_COUNT` sentinel kept as the last entry. -/
inductive crypto_denom_t where
  | BTC_DENOM_BITCOIN
  | BTC_DENOM_SATOSHI
  | BTC_DENOM_MILLIBIT
  | BTC_DENOM_MICROBIT
  | ETH_DENOM_ETHER
  | ETH_DENOM_GWEI
  | ETH_DENOM_WEI
  | BNB_DENOM_BNB
  | BNB_DENOM_JAGER
  | SOL_DENOM_SOL
  | SOL_DENOM_LAMPORT
  | XRP_DENOM_XRP
  | XRP_DENOM_DROP
  | ADA_DENOM_ADA
  | ADA_DENOM_LOVELACE
  | AVAX_DENOM_AVAX
  | AVAX_DENOM_NAVAX
  | DOGE_DENOM_DOGE
  | DOGE_DENOM_SATOSHI
  | DOT_DENOM_DOT
  | DOT_DENOM_PLANCK
  | MATIC_DENOM_MATIC
  | MATIC_DENOM_WEI
  | USDC_DENOM_USDC
  | USDC_DENOM_MICROUSDC
  | USDT_DENOM_USDT
  | USDT_DENOM_MICROUSDT
  | FLR_DENOM_FLR
  | FLR_DENOM_GWEI
  | FLR_DENOM_WEI
  | SGB_DENOM_SGB
  | SGB_DENOM_GWEI
  | SGB_DENOM_WEI
  | WFLR_DENOM_WFLR
  | WFLR_DENOM_GWEI
  | WFLR_DENOM_WEI
  | WSGB_DENOM_WSGB
  | WSGB_DENOM_GWEI
  | WSGB_DENOM_WEI
  | DENOM_COUNT
  deriving DecidableEq

/-- A denomination registry entry (`crypto_denom_def_t`): human name,
symbol, owning family and number of decimal places (`uint8_t` in C). -/
structure crypto_denom_def_t where
  name : String
  symbol : String
  crypto_type : crypto_type_t
  decimals : Nat
  deriving DecidableEq

open crypto_type_t crypto_denom_t

/-- The static registry `crypto_denoms[]`, as the indexing function of
the C array.  The C array has no entry at index `DENOM_COUNT`
(indexing there would be out of bounds); that case is mapped to an
inert dummy entry which no theorem relies on. -/
def crypto_denoms : crypto_denom_t → crypto_denom_def_t
  | BTC_DENOM_BITCOIN => ⟨"Bitcoin", "BTC", CRYPTO_BITCOIN, 8⟩
  | BTC_DENOM_SATOSHI => ⟨"Satoshi", "SAT", CRYPTO_BITCOIN, 0⟩
  | BTC_DENOM_MILLIBIT => ⟨"Millibit", "mBTC", CRYPTO_BITCOIN, 5⟩
  | BTC_DENOM_MICROBIT => ⟨"Microbit", "μBTC", CRYPTO_BITCOIN, 2⟩
  | ETH_DENOM_ETHER => ⟨"Ether", "ETH", CRYPTO_ETHEREUM, 18⟩
  | ETH_DENOM_GWEI => ⟨"Gwei", "GWEI", CRYPTO_ETHEREUM, 9⟩
  | ETH_DENOM_WEI => ⟨"Wei", "WEI", CRYPTO_ETHEREUM, 0⟩
  | BNB_DENOM_BNB => ⟨"Binance Coin", "BNB", CRYPTO_BINANCE_COIN, 18⟩
  | BNB_DENOM_JAGER => ⟨"Jager", "JAGER", CRYPTO_BINANCE_COIN, 0⟩
  | SOL_DENOM_SOL => ⟨"Solana", "SOL", CRYPTO_SOLANA, 9⟩
  | SOL_DENOM_LAMPORT => ⟨"Lamport", "LAMP", CRYPTO_SOLANA, 0⟩
  | XRP_DENOM_XRP => ⟨"XRP", "XRP", CRYPTO_XRP, 6⟩
  | XRP_DENOM_DROP => ⟨"Drop", "DROP", CRYPTO_XRP, 0⟩
  | ADA_DENOM_ADA => ⟨"Cardano", "ADA", CRYPTO_CARDANO, 6⟩
  | ADA_DENOM_LOVELACE => ⟨"Lovelace", "LOVELACE", CRYPTO_CARDANO, 0⟩
  | AVAX_DENOM_AVAX => ⟨"Avalanche", "AVAX", CRYPTO_AVALANCHE, 18⟩
  | AVAX_DENOM_NAVAX => ⟨"nAVAX", "nAVAX", CRYPTO_AVALANCHE, 0⟩
  | DOGE_DENOM_DOGE => ⟨"Dogecoin", "DOGE", CRYPTO_DOGECOIN, 8⟩
  | DOGE_DENOM_SATOSHI => ⟨"Satoshi", "SAT", CRYPTO_DOGECOIN, 0⟩
  | DOT_DENOM_DOT => ⟨"Polkadot", "DOT", CRYPTO_POLKADOT, 10⟩
  | DOT_DENOM_PLANCK => ⟨"Planck", "PLANCK", CRYPTO_POLKADOT, 0⟩
  | MATIC_DENOM_MATIC => ⟨"Polygon", "MATIC", CRYPTO_POLYGON, 18⟩
  | MATIC_DENOM_WEI => ⟨"Wei", "WEI", CRYPTO_POLYGON, 0⟩
  | USDC_DENOM_USDC => ⟨"USD Coin", "USDC", CRYPTO_USDC, 6⟩
  | USDC_DENOM_MICROUSDC => ⟨"Micro USD Coin", "μUSDC", CRYPTO_USDC, 0⟩
  | USDT_DENOM_USDT => ⟨"Tether", "USDT", CRYPTO_USDT, 6⟩
  | USDT_DENOM_MICROUSDT => ⟨"Micro Tether", "μUSDT", CRYPTO_USDT, 0⟩
  | FLR_DENOM_FLR => ⟨"Flare", "FLR", CRYPTO_FLARE, 18⟩
  | FLR_DENOM_GWEI => ⟨"Gwei", "GWEI", CRYPTO_FLARE, 9⟩
  | FLR_DENOM_WEI => ⟨"Wei", "WEI", CRYPTO_FLARE, 0⟩
  | SGB_DENOM_SGB => ⟨"Songbird", "SGB", CRYPTO_SONGBIRD, 18⟩
  | SGB_DENOM_GWEI => ⟨"Gwei", "GWEI", CRYPTO_SONGBIRD, 9⟩
  | SGB_DENOM_WEI => ⟨"Wei", "WEI", CRYPTO_SONGBIRD, 0⟩
  | WFLR_DENOM_WFLR => ⟨"Wrapped Flare", "WFLR", CRYPTO_WFLR, 18⟩
  | WFLR_DENOM_GWEI => ⟨"Gwei", "GWEI", CRYPTO_WFLR, 9⟩
  | WFLR_DENOM_WEI => ⟨"Wei", "WEI", CRYPTO_WFLR, 0⟩
  | WSGB_DENOM_WSGB => ⟨"Wrapped Songbird", "WSGB", CRYPTO_WSGB, 18⟩
  | WSGB_DENOM_GWEI => ⟨"Gwei", "GWEI", CRYPTO_WSGB, 9⟩
  | WSGB_DENOM_WEI => ⟨"Wei", "WEI", CRYPTO_WSGB, 0⟩
  | DENOM_COUNT => ⟨"", "", CRYPTO_COUNT, 0⟩

/-- The valid denomination indices `0 .. DENOM_COUNT-1` in enumeration
order, as iterated by the lookup loop in `crypto_get_denom_for_symbol`. -/
def denomEnumList : List crypto_denom_t :=
  [BTC_DENOM_BITCOIN, BTC_DENOM_SATOSHI, BTC_DENOM_MILLIBIT, BTC_DENOM_MICROBIT,
   ETH_DENOM_ETHER, ETH_DENOM_GWEI, ETH_DENOM_WEI,
   BNB_DENOM_BNB, BNB_DENOM_JAGER,
   SOL_DENOM_SOL, SOL_DENOM_LAMPORT,
   XRP_DENOM_XRP, XRP_DENOM_DROP,
   ADA_DENOM_ADA, ADA_DENOM_LOVELACE,
   AVAX_DENOM_AVAX, AVAX_DENOM_NAVAX,
   DOGE_DENOM_DOGE, DOGE_DENOM_SATOSHI,
   DOT_DENOM_DOT, DOT_DENOM_PLANCK,
   MATIC_DENOM_MATIC, MATIC_DENOM_WEI,
   USDC_DENOM_USDC, USDC_DENOM_MICROUSDC,
   USDT_DENOM_USDT, USDT_DENOM_MICROUSDT,
   FLR_DENOM_FLR, FLR_DENOM_GWEI, FLR_DENOM_WEI,
   SGB_DENOM_SGB, SGB_DENOM_GWEI, SGB_DENOM_WEI,
   WFLR_DENOM_WFLR, WFLR_DENOM_GWEI, WFLR_DENOM_WEI,
   WSGB_DENOM_WSGB, WSGB_DENOM_GWEI, WSGB_DENOM_WEI]

/-- Validity check `crypto_is_valid_denom`: the C compares the enum
ordinal against the range `[0, DENOM_COUNT)`, which holds exactly for
the non-sentinel constructors. -/
def crypto_is_valid_denom (d : crypto_denom_t) : Bool :=
  d ≠ DENOM_COUNT

/-- A decimal value (`crypto_val_t`): the owning family and the signed
arbitrary-precision magnitude in atomic units. -/
structure crypto_val_t where
  crypto_type : crypto_type_t
  value : Int
  deriving DecidableEq

/-- The helper `power` of cryptomath2.h: `uint64_t` repeated
multiplication, so each step wraps modulo `2 ^ 64`. -/
def power (base : Nat) : Nat → Nat
  | 0 => 1
  | e + 1 => power base e * base % 2 ^ 64

/-- For every exponent that fits (`10 ^ 19 < 2 ^ 64`), `power` computes
the exact power of ten.  All registry entries have at most 18 decimals. -/
theorem power_ten_exact : ∀ d < 20, power 10 d = 10 ^ d := by decide

/-- Whitespace recognized by C `isspace` (used inside GMP's string
parser): space, tab, newline, vertical tab, form feed, carriage return. -/
def wsMpz (c : Char) : Bool :=
  c = ' ' || c = '\t' || c = '\n' || c = '\x0b' || c = '\x0c' || c = '\r'

/-- Whitespace recognized by `crypto_is_valid_decimal`: space, tab,
newline, carriage return. -/
def wsValid (c : Char) : Bool :=
  c = ' ' || c = '\t' || c = '\n' || c = '\r'

/-- Numeric value of an ASCII digit character. -/
def digitVal (c : Char) : Nat := c.toNat - 48

/-- Main scanning loop of GMP `mpz_set_str` after the first digit was
accepted: whitespace is ignored, digits are accumulated in base 10, any
other character makes the conversion fail. -/
def mpzDigits : List Char → Nat → Option Nat
  | [], acc => some acc
  | c :: cs, acc =>
    if wsMpz c then mpzDigits cs acc
    else if c.isDigit then mpzDigits cs (acc * 10 + digitVal c)
    else none

/-- Model of GMP `mpz_set_str` in base 10, writing to a freshly
initialized (zero) destination: leading C whitespace is skipped, one
leading minus sign is honored (a plus sign is not), the first remaining
character must be a decimal digit, and the rest may be digits or
ignored whitespace.  On failure GMP returns -1 and leaves the
destination unchanged, hence 0 here, because every call site in the
repository passes a freshly initialized `mpz_t`. -/
def mpz_set_str (s : List Char) : Int :=
  match s.dropWhile wsMpz with
  | [] => 0
  | c :: cs =>
    if c = '-' then
      match cs with
      | [] => 0
      | d :: ds =>
        if d.isDigit then
          match mpzDigits ds (digitVal d) with
          | some n => -(n : Int)
          | none => 0
        else 0
    else
      if c.isDigit then
        match mpzDigits cs (digitVal c) with
        | some n => (n : Int)
        | none => 0
      else 0

/-- The `strchr(s, c)` split at the first dot: whole-part characters
before the first `'.'` and the characters after it. -/
def splitAtDot : List Char → Option (List Char × List Char)
  | [] => none
  | c :: cs =>
    if c = '.' then some ([], cs)
    else
      match splitAtDot cs with
      | none => none
      | some (a, b) => some (c :: a, b)

/-- Sign handling of `crypto_set_from_decimal`: one leading minus gives
sign -1, one leading plus is skipped, anything else leaves the string
untouched with sign +1. -/
def signSplit : List Char → Int × List Char
  | [] => (1, [])
  | c :: cs =>
    if c = '-' then (-1, cs)
    else if c = '+' then (1, cs)
    else (1, c :: cs)

/-- Model of `crypto_set_from_decimal`: returns the atomic-unit
magnitude stored into `val->value` (freshly initialized by
`crypto_init`; the C asserts become theorem hypotheses).  Steps mirror
the source: skip leading plain spaces, read one optional sign, split at
the first dot; without a dot the whole string is converted and scaled
by `power(10, decimals)`; with a dot the whole part is converted and
scaled, and the fraction is written into a buffer of exactly
`decimals` characters prefilled with `'0'` (the copy truncates to that
length); the sign is applied last. -/
def crypto_set_from_decimal (denom : crypto_denom_t) (s : List Char) : Int :=
  let s1 := s.dropWhile (fun c => c = ' ')
  let sign := (signSplit s1).1
  let s2 := (signSplit s1).2
  let d := (crypto_denoms denom).decimals
  match splitAtDot s2 with
  | none => mpz_set_str s2 * (power 10 d : Int) * sign
  | some (w, f) =>
      let whole_part := mpz_set_str w * (power 10 d : Int)
      let fraction_part := mpz_set_str (f.take d ++ List.replicate (d - f.length) '0')
      (whole_part + fraction_part) * sign

/-- ASCII character of a digit value, as produced by `mpz_get_str`. -/
def digitChar (n : Nat) : Char := Char.ofNat (48 + n)

/-- Digit renderer loop: emits one decimal digit per step, least
significant first into the accumulator, with enough fuel to finish.
Structural recursion on the fuel keeps every evaluation kernel-reducible. -/
def digitsOfCore : Nat → Nat → List Char → List Char
  | 0, _, acc => acc
  | fuel + 1, n, acc =>
    if n < 10 then digitChar n :: acc
    else digitsOfCore fuel (n / 10) (digitChar (n % 10) :: acc)

/-- Decimal digit string of a natural number, most significant digit
first, `"0"` for zero — the base-10 behavior of `mpz_get_str` on a
non-negative operand. -/
def digitsOf (n : Nat) : List Char := digitsOfCore (n + 1) n []

theorem digitsOfCore_acc : ∀ (fuel n : Nat) (acc : List Char),
    digitsOfCore fuel n acc = digitsOfCore fuel n [] ++ acc := by
  intro fuel
  induction fuel with
  | zero => intro n acc; rfl
  | succ fuel ih =>
    intro n acc
    rw [digitsOfCore, digitsOfCore]
    by_cases h : n < 10
    · rw [if_pos h, if_pos h]
      rfl
    · rw [if_neg h, if_neg h]
      rw [ih (n / 10) (digitChar (n % 10) :: acc), ih (n / 10) [digitChar (n % 10)]]
      simp

theorem digitsOfCore_fuel : ∀ (fuel n : Nat) (acc : List Char), n < fuel →
    digitsOfCore fuel n acc = digitsOfCore (n + 1) n acc := by
  intro fuel
  induction fuel using Nat.strong_induction_on with
  | _ fuel ih =>
    intro n acc hn
    cases fuel with
    | zero => omega
    | succ f =>
      rw [digitsOfCore]
      by_cases h : n < 10
      · rw [if_pos h, digitsOfCore, if_pos h]
      · rw [if_neg h, digitsOfCore, if_neg h]
        have hd : n / 10 < n := Nat.div_lt_self (by omega) (by omega)
        rw [ih f (by omega) (n / 10) _ (by omega), ih n (by omega) (n / 10) _ hd]

theorem digitsOf_eq (n : Nat) : digitsOf n =
    if n < 10 then [digitChar n]
    else digitsOf (n / 10) ++ [digitChar (n % 10)] := by
  show digitsOfCore (n + 1) n [] = _
  by_cases h : n < 10
  · rw [if_pos h, digitsOfCore, if_pos h]
  · rw [if_neg h, digitsOfCore, if_neg h]
    have hd : n / 10 < n := Nat.div_lt_self (by omega) (by omega)
    rw [digitsOfCore_fuel n (n / 10) _ hd, digitsOfCore_acc]
    rfl

/-- Model of `crypto_to_decimal_str`: the sign is `mpz_sgn`, the value
is split by `mpz_tdiv_qr_ui` (truncated division) at
`power(10, decimals)`, both parts are made non-negative with `mpz_abs`
and rendered in decimal; `'-'` is prepended when the sign was -1, and a
nonzero fraction is appended after `'.'`, left-padded with `'0'` up to
`decimals` characters. -/
def crypto_to_decimal_str (denom : crypto_denom_t) (v : Int) : List Char :=
  let d := (crypto_denoms denom).decimals
  let p : Int := (power 10 d : Nat)
  let whole_part : Nat := (Int.tdiv v p).natAbs
  let fraction_part : Nat := (Int.tmod v p).natAbs
  let whole_str := digitsOf whole_part
  let fraction_str := digitsOf fraction_part
  let formatted_str := if Int.sign v = -1 then '-' :: whole_str else whole_str
  if fraction_part ≠ 0 then
    formatted_str ++ '.' :: (List.replicate (d - fraction_str.length) '0' ++ fraction_str)
  else formatted_str

/-- Exact addition `crypto_add` (`mpz_add`). -/
def crypto_add (a b : Int) : Int := a + b

/-- Exact subtraction `crypto_sub` (`mpz_sub`). -/
def crypto_sub (a b : Int) : Int := a - b

/-- Scalar multiplication `crypto_mul` (`mpz_mul`). -/
def crypto_mul (a b : Int) : Int := a * b

/-- Division `crypto_div_truncate` (`mpz_tdiv_q`): quotient rounded
toward zero. -/
def crypto_div_truncate (a b : Int) : Int := Int.tdiv a b

/-- Division `crypto_div_floor` (`mpz_fdiv_q`): quotient rounded toward
negative infinity. -/
def crypto_div_floor (a b : Int) : Int := Int.fdiv a b

/-- Division `crypto_div_ceil` (`mpz_cdiv_q`): quotient rounded toward
positive infinity, i.e. the negated floor of the negated numerator.
The zero divisor is unreachable: the extension guards it first. -/
def crypto_div_ceil (a b : Int) : Int := -(Int.fdiv (-a) b)

/-- The arithmetic operation selector of the SQLite extension. -/
inductive crypto_arithmetic_op_t where
  | ARITHMETIC_ADD
  | ARITHMETIC_SUB
  | ARITHMETIC_MUL
  | ARITHMETIC_DIV_TRUNC
  | ARITHMETIC_DIV_FLOOR
  | ARITHMETIC_DIV_CEIL
  deriving DecidableEq

/-- The typed errors the extension's muldiv arithmetic core can report
(via `result_error_fmt`) once both operands are parsed. -/
inductive crypto_sqlite_error where
  | divisionByZero
  | invalidOperation
  deriving DecidableEq

open crypto_arithmetic_op_t

/-- Arithmetic core of `crypto_muldiv_sqlite` after operand parsing
(src/src/crypto_decimal_extension.c, lines 237-273): `a` is the parsed
crypto amount, `scalar` and `precision` come from
`crypto_scale_by_precision` on the second operand.  A zero scalar on
the three division ops is reported as a division-by-zero error before
any divide happens; otherwise `rescale = 10 ^ precision` is computed
exactly (`mpz_ui_pow_ui`) and the selected operation runs. -/
def crypto_muldiv (op : crypto_arithmetic_op_t) (a scalar : Int)
    (precision : Nat) : Except crypto_sqlite_error Int :=
  if (op = ARITHMETIC_DIV_TRUNC ∨ op = ARITHMETIC_DIV_FLOOR ∨ op = ARITHMETIC_DIV_CEIL)
      ∧ scalar = 0 then
    .error .divisionByZero
  else
    let rescale : Int := (10 : Int) ^ precision
    match op with
    | ARITHMETIC_MUL => .ok (Int.tdiv (crypto_mul a scalar) rescale)
    | ARITHMETIC_DIV_TRUNC => .ok (crypto_div_truncate (a * rescale) scalar)
    | ARITHMETIC_DIV_FLOOR => .ok (crypto_div_floor (a * rescale) scalar)
    | ARITHMETIC_DIV_CEIL => .ok (crypto_div_ceil (a * rescale) scalar)
    | _ => .error .invalidOperation

/-- Scanning loop of `crypto_is_valid_decimal` after the first
character was classified: a second dot fails, digits set the digit
flag, whitespace must be followed only by whitespace to the end of the
string, anything else fails; at the end the digit flag decides. -/
def validLoop : List Char → Bool → Bool → Bool
  | [], _, has_digit => has_digit
  | c :: cs, has_decimal, has_digit =>
    if c = '.' then
      if has_decimal then false else validLoop cs true has_digit
    else if c.isDigit then validLoop cs has_decimal true
    else if wsValid c then
      if cs.dropWhile wsValid = [] then has_digit else false
    else false

/-- Model of `crypto_is_valid_decimal`: skip leading whitespace, reject
the empty remainder, skip one optional sign, require the next character
to be a digit or a dot, then run the scanning loop with the flags
seeded from that character. -/
def crypto_is_valid_decimal (s : List Char) : Bool :=
  match s.dropWhile wsValid with
  | [] => false
  | c :: cs =>
    match (if c = '+' ∨ c = '-' then cs else c :: cs) with
    | [] => false
    | d :: ds =>
      if ¬ d.isDigit ∧ d ≠ '.' then false
      else validLoop ds (d = '.') d.isDigit

/-- Removal of trailing whitespace from a character list. -/
def trimEnd : List Char → List Char
  | [] => []
  | c :: cs =>
    match trimEnd cs with
    | [] => if wsValid c then [] else [c]
    | t => c :: t

/-- Characters the grammar's core permits (and the only characters the
validator loop consumes): ASCII digits and the dot. -/
def charOK (c : Char) : Bool := c.isDigit || c = '.'

/-- The decimal grammar exactly as the specification words it
(section 4.3): trim ASCII whitespace from both ends, allow one leading
sign, and require the remaining core to contain at least one ASCII
digit, at most one dot, and nothing but digits and dots.  This is the
comparator definition for the validator claim; it is written from the
specification, not from the code. -/
def spec_is_valid_decimal (s : List Char) : Bool :=
  let t := trimEnd (s.dropWhile wsValid)
  let core :=
    match t with
    | [] => ([] : List Char)
    | c :: cs => if c = '+' ∨ c = '-' then cs else c :: cs
  core.any Char.isDigit && core.all charOK && core.count '.' ≤ 1

/-- Model of `crypto_scale_by_precision`: `mpz_set_str` is applied to
the whole input string (with a dot present that conversion fails and
the freshly initialized result stays 0); the precision counts the
characters after the first dot (the C counter is a `uint8_t`, so this
is faithful for the tails of fewer than 256 characters used here); the
fraction is converted from the characters after the dot, and only when
it is nonzero is the result scaled by `10 ^ precision` (exactly, via
`mpz_ui_pow_ui`) and the fraction added, the precision being returned;
otherwise precision 0 is returned with the result unscaled. -/
def crypto_scale_by_precision (s : List Char) : Nat × Int :=
  let result := mpz_set_str s
  match splitAtDot s with
  | none => (0, result)
  | some (_, f) =>
      let precision := f.length
      let fraction := mpz_set_str f
      if fraction ≠ 0 then
        (precision, result * (10 : Int) ^ precision + fraction)
      else (0, result)

/-- Linear scan of the denomination registry restricted by family, in
enumeration order, as the loop of `crypto_get_denom_for_symbol`. -/
def findDenomFrom (t : crypto_type_t) (s : String) :
    List crypto_denom_t → crypto_denom_t
  | [] => DENOM_COUNT
  | d :: ds =>
    if (crypto_denoms d).crypto_type = t ∧ (crypto_denoms d).symbol = s then d
    else findDenomFrom t s ds

/-- Model of `crypto_get_denom_for_symbol`: scan indices
`0 .. DENOM_COUNT-1` in order, return the first entry whose family and
symbol both match (`strcmp` exact comparison), else the `DENOM_COUNT`
sentinel. -/
def crypto_get_denom_for_symbol (t : crypto_type_t) (s : String) :
    crypto_denom_t :=
  findDenomFrom t s denomEnumList

/-! ### Digit characters and decimal renderings -/

theorem digitChar_facts : ∀ n < 10,
    (digitChar n).isDigit = true ∧ digitVal (digitChar n) = n := by decide

theorem isDigit_spread {c : Char} (h : c.isDigit = true) :
    wsMpz c = false ∧ wsValid c = false ∧ c ≠ '.' ∧ c ≠ '-' ∧ c ≠ '+' ∧ c ≠ ' ' := by
  simp only [Char.isDigit, Bool.and_eq_true, decide_eq_true_eq] at h
  obtain ⟨h1, h2⟩ := h
  have hlo : 48 ≤ c.val := h1
  have hhi : c.val ≤ 57 := h2
  refine ⟨?_, ?_, ?_, ?_, ?_, ?_⟩
  · simp only [wsMpz, Bool.or_eq_false_iff, decide_eq_false_iff_not]
    refine ⟨⟨⟨⟨⟨?_, ?_⟩, ?_⟩, ?_⟩, ?_⟩, ?_⟩ <;> rintro rfl <;> simp_all
  · simp only [wsValid, Bool.or_eq_false_iff, decide_eq_false_iff_not]
    refine ⟨⟨⟨?_, ?_⟩, ?_⟩, ?_⟩ <;> rintro rfl <;> simp_all
  · rintro rfl; simp_all
  · rintro rfl; simp_all
  · rintro rfl; simp_all
  · rintro rfl; simp_all

theorem digitsOf_ne_nil (n : Nat) : digitsOf n ≠ [] := by
  rw [digitsOf_eq]
  split <;> simp

theorem digitsOf_all_digit (n : Nat) : ∀ c ∈ digitsOf n, c.isDigit = true := by
  induction n using Nat.strong_induction_on with
  | _ n ih =>
    rw [digitsOf_eq]
    by_cases h : n < 10
    · rw [if_pos h]
      intro c hc
      rw [List.mem_singleton] at hc
      subst hc
      exact (digitChar_facts n h).1
    · rw [if_neg h]
      intro c hc
      rcases List.mem_append.1 hc with hc | hc
      · exact ih (n / 10) (Nat.div_lt_self (by omega) (by omega)) c hc
      · rw [List.mem_singleton] at hc
        subst hc
        exact (digitChar_facts _ (Nat.mod_lt _ (by omega))).1

/-- Value accumulated by scanning a digit string left to right. -/
def digitsAcc (acc : Nat) (l : List Char) : Nat :=
  l.foldl (fun a c => a * 10 + digitVal c) acc

theorem digitsAcc_append (acc : Nat) (l1 l2 : List Char) :
    digitsAcc acc (l1 ++ l2) = digitsAcc (digitsAcc acc l1) l2 :=
  List.foldl_append ..

theorem digitsAcc_digitsOf (n : Nat) : ∀ acc : Nat,
    digitsAcc acc (digitsOf n) = acc * 10 ^ (digitsOf n).length + n := by
  induction n using Nat.strong_induction_on with
  | _ n ih =>
    intro acc
    rw [digitsOf_eq]
    by_cases h : n < 10
    case pos =>
      rw [if_pos h]
      simp [digitsAcc, (digitChar_facts n h).2]
    case neg =>
    rw [if_neg h]
    rw [digitsAcc_append, ih (n / 10) (Nat.div_lt_self (by omega) (by omega))]
    have hm : digitVal (digitChar (n % 10)) = n % 10 :=
      (digitChar_facts _ (Nat.mod_lt _ (by omega))).2
    simp only [digitsAcc, List.foldl_cons, List.foldl_nil, List.length_append,
      List.length_singleton, hm]
    rw [pow_succ]
    have := Nat.div_add_mod n 10
    ring_nf
    omega

theorem digitsOf_length_le {n k : Nat} (hn : 0 < n) (h : n < 10 ^ k) :
    (digitsOf n).length ≤ k := by
  induction n using Nat.strong_induction_on generalizing k with
  | _ n ih =>
    rw [digitsOf_eq]
    by_cases hlt : n < 10
    case pos =>
      rw [if_pos hlt]
      have : k ≠ 0 := by
        rintro rfl
        simp at h
        omega
      simp
      omega
    case neg =>
    rw [if_neg hlt]
    have hk : 1 ≤ k := by
      by_contra hk
      push_neg at hk
      interval_cases k
      simp at h
      omega
    have hdivpos : 0 < n / 10 := Nat.div_pos (by omega) (by omega)
    have hdivlt : n / 10 < 10 ^ (k - 1) := by
      rw [Nat.div_lt_iff_lt_mul (by omega)]
      calc n < 10 ^ k := h
        _ = 10 ^ (k - 1) * 10 := by
            rw [← pow_succ]
            congr 1
            omega
    have := ih (n / 10) (Nat.div_lt_self (by omega) (by omega)) hdivpos hdivlt
    simp only [List.length_append, List.length_singleton]
    omega

theorem mpzDigits_all_digits (l : List Char) (acc : Nat)
    (h : ∀ c ∈ l, c.isDigit = true) :
    mpzDigits l acc = some (digitsAcc acc l) := by
  induction l generalizing acc with
  | nil => rfl
  | cons c cs ih =>
    have hc : c.isDigit = true := h c (List.mem_cons_self ..)
    rw [mpzDigits, (isDigit_spread hc).1]
    simp only [Bool.false_eq_true, if_false, hc, if_true]
    rw [ih _ fun x hx => h x (List.mem_cons_of_mem _ hx)]
    rfl

theorem mpz_set_str_all_digits (l : List Char)
    (h : ∀ c ∈ l, c.isDigit = true) (hne : l ≠ []) :
    mpz_set_str l = (digitsAcc 0 l : Int) := by
  match l, hne with
  | c :: cs, _ =>
    have hc : c.isDigit = true := h c (List.mem_cons_self ..)
    obtain ⟨hws, _, _, hminus, hplus, _⟩ := isDigit_spread hc
    rw [mpz_set_str]
    rw [List.dropWhile_cons, hws]
    simp only [Bool.false_eq_true, if_false]
    rw [if_neg hminus, if_pos hc,
      mpzDigits_all_digits _ _ fun x hx => h x (List.mem_cons_of_mem _ hx)]
    show (digitsAcc (digitVal c) cs : Int) = (digitsAcc 0 (c :: cs) : Int)
    simp [digitsAcc]

theorem digitsAcc_zero_replicate (k : Nat) :
    digitsAcc 0 (List.replicate k '0') = 0 := by
  induction k with
  | zero => rfl
  | succ k ih =>
    rw [List.replicate_succ]
    simpa [digitsAcc, digitVal] using ih

theorem mpz_set_str_padded (k n : Nat) :
    mpz_set_str (List.replicate k '0' ++ digitsOf n) = (n : Int) := by
  have hall : ∀ c ∈ List.replicate k '0' ++ digitsOf n, c.isDigit = true := by
    intro c hc
    rcases List.mem_append.1 hc with hc | hc
    · rw [List.eq_of_mem_replicate hc]; decide
    · exact digitsOf_all_digit n c hc
  have hne : List.replicate k '0' ++ digitsOf n ≠ [] := by
    intro he
    exact digitsOf_ne_nil n (List.append_eq_nil.1 he).2
  rw [mpz_set_str_all_digits _ hall hne, digitsAcc_append,
    digitsAcc_zero_replicate, digitsAcc_digitsOf]
  simp

theorem mpz_set_str_digitsOf (n : Nat) : mpz_set_str (digitsOf n) = (n : Int) := by
  have := mpz_set_str_padded 0 n
  simpa using this

/-! ### The dot split -/

theorem splitAtDot_of_not_mem {l : List Char} (h : '.' ∉ l) :
    splitAtDot l = none := by
  induction l with
  | nil => rfl
  | cons c cs ih =>
    rw [splitAtDot]
    rw [if_neg (show ¬ c = '.' from fun he => h (List.mem_cons.2 (Or.inl he.symm)))]
    rw [ih fun hm => h (List.mem_cons_of_mem _ hm)]

theorem splitAtDot_append {l1 : List Char} (l2 : List Char) (h : '.' ∉ l1) :
    splitAtDot (l1 ++ '.' :: l2) = some (l1, l2) := by
  induction l1 with
  | nil => simp [splitAtDot]
  | cons c cs ih =>
    rw [List.cons_append, splitAtDot]
    rw [if_neg (show ¬ c = '.' from fun he => h (List.mem_cons.2 (Or.inl he.symm)))]
    rw [ih fun hm => h (List.mem_cons_of_mem _ hm)]

theorem digitsOf_dot_not_mem (n : Nat) : '.' ∉ digitsOf n := by
  intro hm
  exact absurd rfl (isDigit_spread (digitsOf_all_digit n _ hm)).2.2.1

/-! ### Truncated division, remainders and absolute values -/

theorem natAbs_tmod_natCast (v : Int) (p : Nat) :
    (Int.tmod v (p : Nat)).natAbs = v.natAbs % p := by
  cases v with
  | ofNat m => rfl
  | negSucc m =>
    show (-(((m + 1) % p : Nat) : Int)).natAbs = (m + 1) % p
    rw [Int.natAbs_neg, Int.natAbs_ofNat]

theorem natAbs_tdiv_natCast (v : Int) (p : Nat) :
    (Int.tdiv v (p : Nat)).natAbs = v.natAbs / p := by
  rw [Int.natAbs_tdiv]
  rfl

/-! ### Evaluating the parser on structured inputs -/

theorem parse_digits (denom : crypto_denom_t) (l : List Char)
    (h : ∀ c ∈ l, c.isDigit = true) (hne : l ≠ []) :
    crypto_set_from_decimal denom l =
      (digitsAcc 0 l : Int) *
        ((power 10 (crypto_denoms denom).decimals : Nat) : Int) := by
  match l, hne with
  | c :: cs, _ =>
    have hc : c.isDigit = true := h c (List.mem_cons_self ..)
    obtain ⟨_, _, _, hm, hp2, hsp⟩ := isDigit_spread hc
    have hdots : '.' ∉ c :: cs := fun hm2 =>
      absurd rfl (isDigit_spread (h _ hm2)).2.2.1
    rw [crypto_set_from_decimal]
    simp only [List.dropWhile_cons, decide_eq_true_eq]
    rw [if_neg hsp]
    have hss : signSplit (c :: cs) = (1, c :: cs) := by
      rw [signSplit, if_neg hm, if_neg hp2]
    rw [hss]
    simp only [splitAtDot_of_not_mem hdots]
    rw [mpz_set_str_all_digits _ h (by simp)]
    ring

theorem parse_digits_dot (denom : crypto_denom_t) (w f : List Char)
    (h : ∀ c ∈ w, c.isDigit = true) (hne : w ≠ []) :
    crypto_set_from_decimal denom (w ++ '.' :: f) =
      (digitsAcc 0 w : Int) *
        ((power 10 (crypto_denoms denom).decimals : Nat) : Int) +
      mpz_set_str (f.take (crypto_denoms denom).decimals ++
        List.replicate ((crypto_denoms denom).decimals - f.length) '0') := by
  match w, hne with
  | c :: cs, _ =>
    have hc : c.isDigit = true := h c (List.mem_cons_self ..)
    obtain ⟨_, _, _, hm, hp2, hsp⟩ := isDigit_spread hc
    have hdots : '.' ∉ c :: cs := fun hm2 =>
      absurd rfl (isDigit_spread (h _ hm2)).2.2.1
    rw [crypto_set_from_decimal]
    simp only [List.cons_append, List.dropWhile_cons, decide_eq_true_eq]
    rw [if_neg hsp]
    have hss : signSplit (c :: (cs ++ '.' :: f)) = (1, c :: (cs ++ '.' :: f)) := by
      rw [signSplit, if_neg hm, if_neg hp2]
    rw [hss]
    rw [show c :: (cs ++ '.' :: f) = (c :: cs) ++ '.' :: f from rfl]
    simp only [splitAtDot_append f hdots]
    rw [mpz_set_str_all_digits _ h (by simp)]
    ring

theorem parse_neg (denom : crypto_denom_t) (c : Char) (cs : List Char)
    (hc : c.isDigit = true) :
    crypto_set_from_decimal denom ('-' :: c :: cs) =
      - crypto_set_from_decimal denom (c :: cs) := by
  obtain ⟨_, _, _, hm, hp2, hsp⟩ := isDigit_spread hc
  rw [crypto_set_from_decimal, crypto_set_from_decimal]
  simp only [List.dropWhile_cons, decide_eq_true_eq]
  rw [if_neg (show ¬ ('-' : Char) = ' ' by decide), if_neg hsp]
  have h1 : signSplit ('-' :: c :: cs) = (-1, c :: cs) := by
    rw [signSplit, if_pos rfl]
  have h2 : signSplit (c :: cs) = (1, c :: cs) := by
    rw [signSplit, if_neg hm, if_neg hp2]
  rw [h1, h2]
  cases hsp2 : splitAtDot (c :: cs) with
  | none => simp only; ring
  | some wf =>
    obtain ⟨w, f⟩ := wf
    simp only
    ring

/-! ### The canonical structure of formatter output -/

theorem format_structure (denom : crypto_denom_t)
    (hd : (crypto_denoms denom).decimals < 20) (v : Int) :
    crypto_to_decimal_str denom v =
      (if Int.sign v = -1 then
        '-' :: digitsOf (v.natAbs / 10 ^ (crypto_denoms denom).decimals)
       else digitsOf (v.natAbs / 10 ^ (crypto_denoms denom).decimals)) ++
      (if v.natAbs % 10 ^ (crypto_denoms denom).decimals ≠ 0 then
        '.' :: (List.replicate ((crypto_denoms denom).decimals -
            (digitsOf (v.natAbs % 10 ^ (crypto_denoms denom).decimals)).length) '0' ++
          digitsOf (v.natAbs % 10 ^ (crypto_denoms denom).decimals))
       else []) := by
  have hp : (power 10 (crypto_denoms denom).decimals : Nat) =
      10 ^ (crypto_denoms denom).decimals := power_ten_exact _ hd
  rw [crypto_to_decimal_str]
  simp only [hp, natAbs_tdiv_natCast, natAbs_tmod_natCast]
  by_cases hr0 : v.natAbs % 10 ^ (crypto_denoms denom).decimals = 0
  · simp [hr0]
  · simp [hr0]

/-! ### The parse-format round trip -/

theorem parse_format_core (denom : crypto_denom_t)
    (hd : (crypto_denoms denom).decimals < 20) (v : Int) :
    crypto_set_from_decimal denom (crypto_to_decimal_str denom v) = v := by
  have hp : (power 10 (crypto_denoms denom).decimals : Nat) =
      10 ^ (crypto_denoms denom).decimals := power_ten_exact _ hd
  set d := (crypto_denoms denom).decimals with hdd
  set P : Nat := 10 ^ d with hPdef
  have hPpos : 0 < P := Nat.pos_pow_of_pos d (by omega)
  set q : Nat := v.natAbs / P with hq
  set r : Nat := v.natAbs % P with hr
  have hqr : P * q + r = v.natAbs := Nat.div_add_mod v.natAbs P
  have hrP : r < P := Nat.mod_lt _ hPpos
  have hout : crypto_to_decimal_str denom v =
      (if Int.sign v = -1 then '-' :: digitsOf q else digitsOf q) ++
      (if r ≠ 0 then
        '.' :: (List.replicate (d - (digitsOf r).length) '0' ++ digitsOf r)
       else []) := format_structure denom hd v
  -- parsing the unsigned body gives the absolute magnitude
  have hbody : crypto_set_from_decimal denom (digitsOf q ++
      (if r ≠ 0 then
        '.' :: (List.replicate (d - (digitsOf r).length) '0' ++ digitsOf r)
       else [])) = ((q * P + r : Nat) : Int) := by
    by_cases hr0 : r = 0
    · simp only [hr0, ne_eq, not_true_eq_false, if_false, List.append_nil]
      rw [parse_digits denom _ (digitsOf_all_digit q) (digitsOf_ne_nil q)]
      rw [digitsAcc_digitsOf, ← hdd, hp]
      push_cast [hr0]
      ring
    · simp only [ne_eq, hr0, not_false_iff, if_true]
      rw [parse_digits_dot denom _ _ (digitsOf_all_digit q) (digitsOf_ne_nil q)]
      have hlen : (digitsOf r).length ≤ d := by
        apply digitsOf_length_le (by omega)
        rw [← hPdef]
        exact hrP
      have hflen : (List.replicate (d - (digitsOf r).length) '0' ++
          digitsOf r).length = d := by
        simp only [List.length_append, List.length_replicate]
        omega
      rw [← hdd]
      rw [List.take_of_length_le (le_of_eq hflen), hflen]
      simp only [Nat.sub_self, List.replicate_zero, List.append_nil]
      rw [mpz_set_str_padded, digitsAcc_digitsOf, hp]
      push_cast
      ring
  rcases lt_trichotomy v 0 with hv | hv | hv
  · have hsgn : Int.sign v = -1 := Int.sign_eq_neg_one_iff_neg.2 hv
    rw [hout, hsgn, if_pos rfl]
    obtain ⟨c, cs, hcons⟩ : ∃ c cs, digitsOf q = c :: cs := by
      cases hq2 : digitsOf q with
      | nil => exact absurd hq2 (digitsOf_ne_nil q)
      | cons c cs => exact ⟨c, cs, rfl⟩
    have hcdig : c.isDigit = true :=
      digitsOf_all_digit q c (hcons ▸ List.mem_cons_self ..)
    have habs : ((q * P + r : Nat) : Int) = -v := by
      rw [Nat.mul_comm q P, hqr]
      exact Int.ofNat_natAbs_of_nonpos (le_of_lt hv)
    rw [List.cons_append, hcons, List.cons_append, parse_neg denom c _ hcdig]
    rw [← List.cons_append, ← hcons, hbody, habs]
    ring
  · subst hv
    have h0q : q = 0 := by rw [hq]; simp
    have h0r : r = 0 := by rw [hr]; simp
    rw [hout]
    have hsgn : ¬ Int.sign (0 : Int) = -1 := by decide
    rw [if_neg hsgn]
    simp only [h0r, ne_eq, not_true_eq_false, if_false, List.append_nil]
    rw [parse_digits denom _ (digitsOf_all_digit q) (digitsOf_ne_nil q)]
    rw [digitsAcc_digitsOf, h0q]
    simp
  · have hsgn : ¬ Int.sign v = -1 := by
      rw [Int.sign_eq_one_iff_pos.2 hv]
      decide
    rw [hout, if_neg hsgn]
    have habs : ((q * P + r : Nat) : Int) = v := by
      rw [Nat.mul_comm q P, hqr]
      exact Int.natAbs_of_nonneg (le_of_lt hv)
    rw [hbody, habs]

theorem denom_decimals_lt (D : crypto_denom_t) :
    (crypto_denoms D).decimals < 20 := by
  cases D <;> decide

/-! ### Claim C1 -/

/-- Claim C1.  Round trip: for every denomination `D` and every
`DecimalValue` whose family is `D`'s family, parsing the formatted
string back under the same denomination restores the value exactly:
`crypto_set_from_decimal D (crypto_to_decimal_str D v) = v`. -/
theorem claim_c1_round_trip (D : crypto_denom_t) (v : crypto_val_t)
    (hD : crypto_is_valid_denom D = true)
    (hfam : v.crypto_type = (crypto_denoms D).crypto_type) :
    crypto_set_from_decimal D (crypto_to_decimal_str D v.value) = v.value :=
  parse_format_core D (denom_decimals_lt D) v.value

/-- Witness for C1 at the Bitcoin denomination and the value
-1234567 satoshi. -/
theorem claim_c1_round_trip_witness :
    crypto_is_valid_denom BTC_DENOM_BITCOIN = true ∧
    (crypto_val_t.mk CRYPTO_BITCOIN (-1234567)).crypto_type =
      (crypto_denoms BTC_DENOM_BITCOIN).crypto_type ∧
    crypto_set_from_decimal BTC_DENOM_BITCOIN
      (crypto_to_decimal_str BTC_DENOM_BITCOIN
        (crypto_val_t.mk CRYPTO_BITCOIN (-1234567)).value) =
      (crypto_val_t.mk CRYPTO_BITCOIN (-1234567)).value :=
  ⟨by decide, by decide,
    claim_c1_round_trip BTC_DENOM_BITCOIN
      (crypto_val_t.mk CRYPTO_BITCOIN (-1234567)) (by decide) (by decide)⟩

/-! ### Claim C2 -/

/-- Claim C2.  Formatter canonical output: `crypto_to_decimal_str`
splits the absolute magnitude by truncating division at
`10 ^ decimals`; a zero remainder yields exactly the quotient digits
with no decimal point (hence no trailing zeros even for positive
`decimals`); a nonzero remainder yields the quotient digits, a dot, and
the remainder left-zero-padded to exactly `decimals` digits; a minus
sign is prepended exactly when the magnitude is negative.  In
particular formatting the parse of "1" under Bitcoin gives "1". -/
theorem claim_c2_formatter (D : crypto_denom_t) (v : Int)
    (hD : crypto_is_valid_denom D = true) :
    (v.natAbs % 10 ^ (crypto_denoms D).decimals = 0 →
      crypto_to_decimal_str D v =
        (if v < 0 then ['-'] else []) ++
          digitsOf (v.natAbs / 10 ^ (crypto_denoms D).decimals) ∧
      '.' ∉ crypto_to_decimal_str D v) ∧
    (v.natAbs % 10 ^ (crypto_denoms D).decimals ≠ 0 →
      crypto_to_decimal_str D v =
        (if v < 0 then ['-'] else []) ++
          (digitsOf (v.natAbs / 10 ^ (crypto_denoms D).decimals) ++
            '.' :: (List.replicate ((crypto_denoms D).decimals -
                (digitsOf (v.natAbs % 10 ^ (crypto_denoms D).decimals)).length) '0' ++
              digitsOf (v.natAbs % 10 ^ (crypto_denoms D).decimals))) ∧
      (List.replicate ((crypto_denoms D).decimals -
          (digitsOf (v.natAbs % 10 ^ (crypto_denoms D).decimals)).length) '0' ++
        digitsOf (v.natAbs % 10 ^ (crypto_denoms D).decimals)).length =
        (crypto_denoms D).decimals) ∧
    ((crypto_to_decimal_str D v).head? = some '-' ↔ v < 0) ∧
    crypto_to_decimal_str BTC_DENOM_BITCOIN
      (crypto_set_from_decimal BTC_DENOM_BITCOIN "1".toList) = "1".toList := by
  have hd := denom_decimals_lt D
  have hfs := format_structure D hd v
  have hsplit : ∀ W : List Char,
      (if Int.sign v = -1 then '-' :: W else W) =
        (if v < 0 then ['-'] else []) ++ W := by
    intro W
    by_cases hv : v < 0
    · rw [if_pos (Int.sign_eq_neg_one_iff_neg.2 hv), if_pos hv]
      rfl
    · rw [if_neg (fun h => hv (Int.sign_eq_neg_one_iff_neg.1 h)), if_neg hv,
        List.nil_append]
  have hnn : ∀ x : Nat, x = 0 → ¬ x ≠ 0 := fun x hx => not_not_intro hx
  refine ⟨?_, ?_, ?_, by decide⟩
  · intro hr0
    constructor
    · rw [hfs, hsplit, if_neg (hnn _ hr0), List.append_nil]
    · rw [hfs, if_neg (hnn _ hr0), List.append_nil]
      by_cases hv : Int.sign v = -1
      · rw [if_pos hv]
        intro hm
        rcases List.mem_cons.1 hm with h1 | h1
        · exact absurd h1.symm (by decide)
        · exact digitsOf_dot_not_mem _ h1
      · rw [if_neg hv]
        exact digitsOf_dot_not_mem _
  · intro hr0
    constructor
    · rw [hfs, if_pos hr0, hsplit, List.append_assoc]
    · have hrP : v.natAbs % 10 ^ (crypto_denoms D).decimals <
          10 ^ (crypto_denoms D).decimals :=
        Nat.mod_lt _ (Nat.pos_pow_of_pos _ (by omega))
      have hlen : (digitsOf (v.natAbs % 10 ^ (crypto_denoms D).decimals)).length ≤
          (crypto_denoms D).decimals :=
        digitsOf_length_le (Nat.pos_of_ne_zero hr0) hrP
      simp only [List.length_append, List.length_replicate]
      omega
  · rw [hfs]
    obtain ⟨c, cs, hcons⟩ : ∃ c cs,
        digitsOf (v.natAbs / 10 ^ (crypto_denoms D).decimals) = c :: cs := by
      cases hq2 : digitsOf (v.natAbs / 10 ^ (crypto_denoms D).decimals) with
      | nil => exact absurd hq2 (digitsOf_ne_nil _)
      | cons c cs => exact ⟨c, cs, rfl⟩
    have hcd : c.isDigit = true := digitsOf_all_digit _ c (hcons ▸ List.mem_cons_self ..)
    constructor
    · intro hh
      by_contra hv
      rw [if_neg (fun h => hv (Int.sign_eq_neg_one_iff_neg.1 h)), hcons] at hh
      rw [List.cons_append] at hh
      rw [List.head?_cons] at hh
      have : c = '-' := by injection hh
      exact absurd rfl (this ▸ (isDigit_spread hcd).2.2.2.1)
    · intro hv
      rw [if_pos (Int.sign_eq_neg_one_iff_neg.2 hv)]
      rfl

/-- Witness for C2 at the Bitcoin denomination and the value
-123456789 satoshi (nonzero quotient and remainder, negative sign). -/
theorem claim_c2_formatter_witness :
    crypto_is_valid_denom BTC_DENOM_BITCOIN = true ∧
    (((-123456789 : Int).natAbs % 10 ^ (crypto_denoms BTC_DENOM_BITCOIN).decimals = 0 →
      crypto_to_decimal_str BTC_DENOM_BITCOIN (-123456789) =
        (if (-123456789 : Int) < 0 then ['-'] else []) ++
          digitsOf ((-123456789 : Int).natAbs /
            10 ^ (crypto_denoms BTC_DENOM_BITCOIN).decimals) ∧
      '.' ∉ crypto_to_decimal_str BTC_DENOM_BITCOIN (-123456789)) ∧
    ((-123456789 : Int).natAbs % 10 ^ (crypto_denoms BTC_DENOM_BITCOIN).decimals ≠ 0 →
      crypto_to_decimal_str BTC_DENOM_BITCOIN (-123456789) =
        (if (-123456789 : Int) < 0 then ['-'] else []) ++
          (digitsOf ((-123456789 : Int).natAbs /
              10 ^ (crypto_denoms BTC_DENOM_BITCOIN).decimals) ++
            '.' :: (List.replicate ((crypto_denoms BTC_DENOM_BITCOIN).decimals -
                (digitsOf ((-123456789 : Int).natAbs %
                  10 ^ (crypto_denoms BTC_DENOM_BITCOIN).decimals)).length) '0' ++
              digitsOf ((-123456789 : Int).natAbs %
                10 ^ (crypto_denoms BTC_DENOM_BITCOIN).decimals))) ∧
      (List.replicate ((crypto_denoms BTC_DENOM_BITCOIN).decimals -
          (digitsOf ((-123456789 : Int).natAbs %
            10 ^ (crypto_denoms BTC_DENOM_BITCOIN).decimals)).length) '0' ++
        digitsOf ((-123456789 : Int).natAbs %
          10 ^ (crypto_denoms BTC_DENOM_BITCOIN).decimals)).length =
        (crypto_denoms BTC_DENOM_BITCOIN).decimals) ∧
    ((crypto_to_decimal_str BTC_DENOM_BITCOIN (-123456789)).head? = some '-' ↔
      (-123456789 : Int) < 0) ∧
    crypto_to_decimal_str BTC_DENOM_BITCOIN
      (crypto_set_from_decimal BTC_DENOM_BITCOIN "1".toList) = "1".toList) :=
  ⟨by decide, claim_c2_formatter BTC_DENOM_BITCOIN (-123456789) (by decide)⟩

/-! ### Claim C3 -/

theorem parse_frac_congr (denom : crypto_denom_t) (w f1 f2 : List Char)
    (hw : '.' ∉ w)
    (hbuf : f1.take (crypto_denoms denom).decimals ++
        List.replicate ((crypto_denoms denom).decimals - f1.length) '0' =
      f2.take (crypto_denoms denom).decimals ++
        List.replicate ((crypto_denoms denom).decimals - f2.length) '0') :
    crypto_set_from_decimal denom (w ++ '.' :: f1) =
      crypto_set_from_decimal denom (w ++ '.' :: f2) := by
  rw [crypto_set_from_decimal, crypto_set_from_decimal]
  simp only [List.dropWhile_append]
  by_cases hempty : (w.dropWhile (fun c => c = ' ')).isEmpty
  · rw [if_pos hempty, if_pos hempty]
    have hdw : ∀ t : List Char,
        List.dropWhile (fun c => decide (c = ' ')) ('.' :: t) = '.' :: t := by
      intro t
      rw [List.dropWhile_cons]
      simp
    rw [hdw, hdw]
    have hss : signSplit ('.' :: f1) = (1, '.' :: f1) := by
      rw [signSplit, if_neg (by decide), if_neg (by decide)]
    have hss2 : signSplit ('.' :: f2) = (1, '.' :: f2) := by
      rw [signSplit, if_neg (by decide), if_neg (by decide)]
    rw [hss, hss2]
    have h1 : splitAtDot ('.' :: f1) = some ([], f1) := by
      rw [splitAtDot, if_pos rfl]
    have h2 : splitAtDot ('.' :: f2) = some ([], f2) := by
      rw [splitAtDot, if_pos rfl]
    simp only [h1, h2, hbuf]
  · rw [if_neg hempty, if_neg hempty]
    obtain ⟨c, w1, hcons⟩ : ∃ c w1, w.dropWhile (fun c => c = ' ') = c :: w1 := by
      cases hq2 : w.dropWhile (fun c => c = ' ') with
      | nil => rw [hq2] at hempty; exact absurd rfl hempty
      | cons c w1 => exact ⟨c, w1, rfl⟩
    have hsub : '.' ∉ c :: w1 := fun hm =>
      hw ((List.dropWhile_sublist (fun c => c = ' ')).subset (hcons ▸ hm))
    have hcw : '.' ∉ w1 := fun hm => hsub (List.mem_cons_of_mem _ hm)
    have hcd : ¬ c = '.' := fun he => hsub (List.mem_cons.2 (Or.inl he.symm))
    rw [hcons]
    simp only [List.cons_append]
    by_cases hcm : c = '-'
    · have hss : ∀ t : List Char, signSplit (c :: t) = (-1, t) := fun t => by
        rw [signSplit, if_pos hcm]
      rw [hss, hss]
      rw [splitAtDot_append f1 hcw, splitAtDot_append f2 hcw]
      simp only [hbuf]
    · by_cases hcp : c = '+'
      · have hss : ∀ t : List Char, signSplit (c :: t) = (1, t) := fun t => by
          rw [signSplit, if_neg hcm, if_pos hcp]
        rw [hss, hss]
        rw [splitAtDot_append f1 hcw, splitAtDot_append f2 hcw]
        simp only [hbuf]
      · have hss : ∀ t : List Char, signSplit (c :: t) = (1, c :: t) := fun t => by
          rw [signSplit, if_neg hcm, if_neg hcp]
        rw [hss, hss]
        rw [show c :: (w1 ++ '.' :: f1) = (c :: w1) ++ '.' :: f1 from rfl]
        rw [show c :: (w1 ++ '.' :: f2) = (c :: w1) ++ '.' :: f2 from rfl]
        rw [splitAtDot_append f1 hsub, splitAtDot_append f2 hsub]
        simp only [hbuf]

/-- Claim C3.  Truncation on parse, not rounding: when the fraction
part is at least as long as the denomination's decimals, the parser
keeps only the first `decimals` fraction characters and silently
discards the rest, so a longer fraction parses identically to its
truncation; in particular parsing
"1.23456789012345678901234567890123456789" under Bitcoin equals
parsing "1.23456789". -/
theorem claim_c3_truncation (D : crypto_denom_t) (w f : List Char)
    (hD : crypto_is_valid_denom D = true)
    (hw : '.' ∉ w)
    (hf : (crypto_denoms D).decimals ≤ f.length) :
    crypto_set_from_decimal D (w ++ '.' :: f) =
      crypto_set_from_decimal D (w ++ '.' :: f.take (crypto_denoms D).decimals) ∧
    crypto_set_from_decimal BTC_DENOM_BITCOIN
      "1.23456789012345678901234567890123456789".toList =
      crypto_set_from_decimal BTC_DENOM_BITCOIN "1.23456789".toList := by
  constructor
  · apply parse_frac_congr D w f (f.take (crypto_denoms D).decimals) hw
    rw [List.take_take, min_self, List.length_take]
    rw [show min (crypto_denoms D).decimals f.length = (crypto_denoms D).decimals
      from by omega]
    rw [Nat.sub_self, Nat.sub_eq_zero_of_le hf]
  · decide

/-- Witness for C3 at the Bitcoin denomination, whole part "1" and a
ten-character fraction. -/
theorem claim_c3_truncation_witness :
    crypto_is_valid_denom BTC_DENOM_BITCOIN = true ∧
    '.' ∉ ['1'] ∧
    (crypto_denoms BTC_DENOM_BITCOIN).decimals ≤ "2345678901".toList.length ∧
    (crypto_set_from_decimal BTC_DENOM_BITCOIN (['1'] ++ '.' :: "2345678901".toList) =
      crypto_set_from_decimal BTC_DENOM_BITCOIN (['1'] ++ '.' ::
        "2345678901".toList.take (crypto_denoms BTC_DENOM_BITCOIN).decimals) ∧
    crypto_set_from_decimal BTC_DENOM_BITCOIN
      "1.23456789012345678901234567890123456789".toList =
      crypto_set_from_decimal BTC_DENOM_BITCOIN "1.23456789".toList) :=
  ⟨by decide, by decide, by decide,
    claim_c3_truncation BTC_DENOM_BITCOIN ['1'] "2345678901".toList
      (by decide) (by decide) (by decide)⟩

/-! ### Claim C8 -/

/-- Counterexample to C8 as stated: parsing "1" and "0.5" under the
Bitcoin denomination (8 decimals), subtracting, and formatting under
the millibit denomination (5 decimals) yields "500" — 0.5 BTC is 500
mBTC exactly, so no fraction digits are emitted — not "0.50000". -/
theorem claim_c8_counterexample :
    crypto_to_decimal_str BTC_DENOM_MILLIBIT
      (crypto_sub (crypto_set_from_decimal BTC_DENOM_BITCOIN "1".toList)
        (crypto_set_from_decimal BTC_DENOM_BITCOIN "0.5".toList)) ≠
      "0.50000".toList := by decide

/-- Claim C8 as amended: with BTC at 8 decimals and mBTC at 5 decimals,
`sub(parse("1", BTC), parse("0.5", BTC))` formatted under the mBTC
denomination equals "500". -/
theorem claim_c8_sub_scenario :
    crypto_to_decimal_str BTC_DENOM_MILLIBIT
      (crypto_sub (crypto_set_from_decimal BTC_DENOM_BITCOIN "1".toList)
        (crypto_set_from_decimal BTC_DENOM_BITCOIN "0.5".toList)) =
      "500".toList := by decide

/-! ### Division rounding bridges -/

theorem fdiv_neg_neg (a b : Int) : Int.fdiv (-a) (-b) = Int.fdiv a b := by
  match a, b with
  | .ofNat 0, b =>
    show Int.fdiv (-(0 : Int)) (-b) = Int.fdiv 0 b
    rw [neg_zero, Int.zero_fdiv, Int.zero_fdiv]
  | .ofNat (m + 1), .ofNat 0 =>
    show Int.fdiv (Int.negSucc m) (-(0 : Int)) = Int.fdiv (Int.ofNat (m + 1)) 0
    rw [neg_zero, Int.fdiv_zero, Int.fdiv_zero]
  | .ofNat (m + 1), .ofNat (n + 1) => rfl
  | .ofNat (m + 1), .negSucc n => rfl
  | .negSucc m, .ofNat 0 =>
    show Int.fdiv (Int.ofNat (m + 1)) (-(0 : Int)) = Int.fdiv (Int.negSucc m) 0
    rw [neg_zero, Int.fdiv_zero, Int.fdiv_zero]
  | .negSucc m, .ofNat (n + 1) => rfl
  | .negSucc m, .negSucc n => rfl

theorem fdiv_eq_rat_floor_pos (a b : Int) (hb : 0 < b) :
    Int.fdiv a b = ⌊(a : ℚ) / (b : ℚ)⌋ := by
  rw [Int.fdiv_eq_ediv a (le_of_lt hb)]
  have hc : ((b.toNat : ℕ) : ℚ) = (b : ℚ) := by
    exact_mod_cast Int.toNat_of_nonneg (le_of_lt hb)
  rw [← hc, Rat.floor_intCast_div_natCast, Int.toNat_of_nonneg (le_of_lt hb)]

theorem fdiv_eq_rat_floor (a b : Int) (hb : b ≠ 0) :
    Int.fdiv a b = ⌊(a : ℚ) / (b : ℚ)⌋ := by
  rcases hb.lt_or_lt with hneg | hpos
  · rw [← fdiv_neg_neg a b, fdiv_eq_rat_floor_pos (-a) (-b) (by omega)]
    congr 1
    push_cast
    rw [neg_div_neg_eq]
  · exact fdiv_eq_rat_floor_pos a b hpos

theorem cdiv_eq_rat_ceil (a b : Int) (hb : b ≠ 0) :
    crypto_div_ceil a b = ⌈(a : ℚ) / (b : ℚ)⌉ := by
  rw [crypto_div_ceil, fdiv_eq_rat_floor (-a) b hb]
  rw [show ((-a : Int) : ℚ) / (b : ℚ) = -((a : ℚ) / (b : ℚ)) by push_cast; ring]
  rw [Int.floor_neg, neg_neg]

theorem tdiv_eq_rat_floor_of_nonneg (a b : Int) (hb : b ≠ 0)
    (hx : 0 ≤ (a : ℚ) / (b : ℚ)) :
    Int.tdiv a b = ⌊(a : ℚ) / (b : ℚ)⌋ := by
  rcases hb.lt_or_lt with hneg | hpos
  · have hbq : (b : ℚ) < 0 := by exact_mod_cast hneg
    have ha : a ≤ 0 := by
      by_contra ha
      push_neg at ha
      have haq : (0 : ℚ) < (a : ℚ) := by exact_mod_cast ha
      have : (a : ℚ) / (b : ℚ) < 0 := div_neg_of_pos_of_neg haq hbq
      linarith
    rw [← Int.neg_tdiv_neg, Int.fdiv_eq_tdiv (by omega) (by omega) |>.symm,
      fdiv_eq_rat_floor_pos (-a) (-b) (by omega)]
    congr 1
    push_cast
    rw [neg_div_neg_eq]
  · have hbq : (0 : ℚ) < (b : ℚ) := by exact_mod_cast hpos
    have ha : 0 ≤ a := by
      by_contra ha
      push_neg at ha
      have haq : (a : ℚ) < 0 := by exact_mod_cast ha
      have : (a : ℚ) / (b : ℚ) < 0 := div_neg_of_neg_of_pos haq hbq
      linarith
    rw [← Int.fdiv_eq_tdiv ha (le_of_lt hpos)]
    exact fdiv_eq_rat_floor_pos a b hpos

theorem tdiv_eq_rat_ceil_of_nonpos (a b : Int) (hb : b ≠ 0)
    (hx : (a : ℚ) / (b : ℚ) ≤ 0) :
    Int.tdiv a b = ⌈(a : ℚ) / (b : ℚ)⌉ := by
  have key : Int.tdiv a b = -(Int.tdiv (-a) b) := by
    rw [Int.neg_tdiv, neg_neg]
  rw [key]
  have hx2 : 0 ≤ ((-a : Int) : ℚ) / (b : ℚ) := by
    rw [show ((-a : Int) : ℚ) / (b : ℚ) = -((a : ℚ) / (b : ℚ)) by push_cast; ring]
    linarith
  rw [tdiv_eq_rat_floor_of_nonneg (-a) b hb hx2]
  rw [show ((-a : Int) : ℚ) / (b : ℚ) = -((a : ℚ) / (b : ℚ)) by push_cast; ring]
  rw [Int.floor_neg, neg_neg]

/-! ### Claim C4 -/

/-- Claim C4.  Division rounding policies: for nonzero scalar `s`,
`divide_by_scalar` scales the magnitude by `10 ^ p` exactly and divides
by `s`; the floor policy returns the rational quotient's floor, the
ceiling policy its ceiling, and the truncating policy its floor for a
non-negative quotient and its ceiling for a non-positive quotient
(i.e. rounding toward zero); the three agree when `s` divides the
scaled magnitude, the ceiling exceeds the floor by exactly one when it
does not, and the three results pairwise differ by at most one unit in
the last place. -/
theorem claim_c4_division_rounding (a s : Int) (p : Nat) (hs : s ≠ 0) :
    ∃ t f c : Int,
      crypto_muldiv ARITHMETIC_DIV_TRUNC a s p = .ok t ∧
      crypto_muldiv ARITHMETIC_DIV_FLOOR a s p = .ok f ∧
      crypto_muldiv ARITHMETIC_DIV_CEIL a s p = .ok c ∧
      f = ⌊((a * 10 ^ p : Int) : ℚ) / (s : ℚ)⌋ ∧
      c = ⌈((a * 10 ^ p : Int) : ℚ) / (s : ℚ)⌉ ∧
      (0 ≤ ((a * 10 ^ p : Int) : ℚ) / (s : ℚ) → t = f) ∧
      (((a * 10 ^ p : Int) : ℚ) / (s : ℚ) ≤ 0 → t = c) ∧
      (s ∣ a * 10 ^ p → t = f ∧ f = c) ∧
      (¬ s ∣ a * 10 ^ p → c = f + 1) ∧
      (t - f).natAbs ≤ 1 ∧ (c - t).natAbs ≤ 1 ∧ (c - f).natAbs ≤ 1 := by
  have hcond : ∀ op : crypto_arithmetic_op_t,
      ¬((op = ARITHMETIC_DIV_TRUNC ∨ op = ARITHMETIC_DIV_FLOOR ∨
          op = ARITHMETIC_DIV_CEIL) ∧ s = 0) := fun op h => hs h.2
  refine ⟨Int.tdiv (a * 10 ^ p) s, Int.fdiv (a * 10 ^ p) s,
    crypto_div_ceil (a * 10 ^ p) s, ?_, ?_, ?_, ?_, ?_, ?_, ?_, ?_, ?_, ?_⟩
  · rw [crypto_muldiv, if_neg (hcond _)] <;> try rfl
  · rw [crypto_muldiv, if_neg (hcond _)] <;> try rfl
  · rw [crypto_muldiv, if_neg (hcond _)] <;> try rfl
  · exact fdiv_eq_rat_floor _ s hs
  · exact cdiv_eq_rat_ceil _ s hs
  · intro hx
    rw [tdiv_eq_rat_floor_of_nonneg _ s hs hx, fdiv_eq_rat_floor _ s hs]
  · intro hx
    rw [tdiv_eq_rat_ceil_of_nonpos _ s hs hx, cdiv_eq_rat_ceil _ s hs]
  · rintro ⟨k, hk⟩
    rw [hk]
    refine ⟨?_, ?_⟩
    · rw [Int.mul_tdiv_cancel_left _ hs, Int.mul_fdiv_cancel_left _ hs]
    · rw [Int.mul_fdiv_cancel_left _ hs, crypto_div_ceil,
        show -(s * k) = s * (-k) by ring, Int.mul_fdiv_cancel_left _ hs, neg_neg]
  · intro hndvd
    rw [fdiv_eq_rat_floor _ s hs, cdiv_eq_rat_ceil _ s hs]
    set x : ℚ := ((a * 10 ^ p : Int) : ℚ) / (s : ℚ) with hxdef
    have h1 : ⌈x⌉ ≤ ⌊x⌋ + 1 := Int.ceil_le_floor_add_one x
    have h2 : ⌊x⌋ ≤ ⌈x⌉ := Int.floor_le_ceil x
    by_contra hne
    have heq : ⌈x⌉ = ⌊x⌋ := by omega
    have hxle : x ≤ (⌊x⌋ : ℚ) := by
      have := Int.le_ceil x
      rw [heq] at this
      exact_mod_cast this
    have hxe : x = (⌊x⌋ : ℚ) := le_antisymm hxle (Int.floor_le x)
    have hsq : (s : ℚ) ≠ 0 := by exact_mod_cast hs
    have hnum : ((a * 10 ^ p : Int) : ℚ) = (s : ℚ) * (⌊x⌋ : ℚ) := by
      rw [← hxe, hxdef]
      field_simp
    have hnum2 : a * 10 ^ p = s * ⌊x⌋ := by exact_mod_cast hnum
    exact hndvd ⟨⌊x⌋, hnum2⟩
  all_goals
    rw [fdiv_eq_rat_floor _ s hs, cdiv_eq_rat_ceil _ s hs]
  all_goals
    set x : ℚ := ((a * 10 ^ p : Int) : ℚ) / (s : ℚ) with hxdef
  all_goals
    have hfc : ⌈x⌉ ≤ ⌊x⌋ + 1 := Int.ceil_le_floor_add_one x
  all_goals
    have htb : ⌊x⌋ ≤ Int.tdiv (a * 10 ^ p) s ∧
        Int.tdiv (a * 10 ^ p) s ≤ ⌈x⌉ := by
      rcases le_or_lt 0 x with hx | hx
      · rw [tdiv_eq_rat_floor_of_nonneg _ s hs hx]
        exact ⟨le_refl _, Int.floor_le_ceil x⟩
      · rw [tdiv_eq_rat_ceil_of_nonpos _ s hs (le_of_lt hx)]
        exact ⟨Int.floor_le_ceil x, le_refl _⟩
  all_goals omega

/-- Witness for C4 dividing 1 BTC (10^8 satoshi) by the scalar 3. -/
theorem claim_c4_division_rounding_witness :
    (3 : Int) ≠ 0 ∧
    (∃ t f c : Int,
      crypto_muldiv ARITHMETIC_DIV_TRUNC 1 3 8 = .ok t ∧
      crypto_muldiv ARITHMETIC_DIV_FLOOR 1 3 8 = .ok f ∧
      crypto_muldiv ARITHMETIC_DIV_CEIL 1 3 8 = .ok c ∧
      f = ⌊((1 * 10 ^ 8 : Int) : ℚ) / ((3 : Int) : ℚ)⌋ ∧
      c = ⌈((1 * 10 ^ 8 : Int) : ℚ) / ((3 : Int) : ℚ)⌉ ∧
      (0 ≤ ((1 * 10 ^ 8 : Int) : ℚ) / ((3 : Int) : ℚ) → t = f) ∧
      (((1 * 10 ^ 8 : Int) : ℚ) / ((3 : Int) : ℚ) ≤ 0 → t = c) ∧
      ((3 : Int) ∣ 1 * 10 ^ 8 → t = f ∧ f = c) ∧
      (¬ (3 : Int) ∣ 1 * 10 ^ 8 → c = f + 1) ∧
      (t - f).natAbs ≤ 1 ∧ (c - t).natAbs ≤ 1 ∧ (c - f).natAbs ≤ 1) :=
  ⟨by decide, claim_c4_division_rounding 1 3 8 (by decide)⟩

/-! ### Claim C5 -/

/-- Claim C5.  Division by a zero scalar is a reported, typed error for
every value and every rounding policy: the extension checks the scalar
before dividing and reports a division-by-zero error instead of
executing any GMP division (which would be undefined behavior). -/
theorem claim_c5_div_by_zero (a : Int) (p : Nat) :
    crypto_muldiv ARITHMETIC_DIV_TRUNC a 0 p =
      .error crypto_sqlite_error.divisionByZero ∧
    crypto_muldiv ARITHMETIC_DIV_FLOOR a 0 p =
      .error crypto_sqlite_error.divisionByZero ∧
    crypto_muldiv ARITHMETIC_DIV_CEIL a 0 p =
      .error crypto_sqlite_error.divisionByZero := by
  refine ⟨?_, ?_, ?_⟩ <;> rw [crypto_muldiv] <;> rw [if_pos (by simp)]

/-! ### Claim C9 -/

theorem findDenomFrom_spec (t : crypto_type_t) (sy : String) :
    ∀ (l : List crypto_denom_t) (D : crypto_denom_t),
      findDenomFrom t sy l = D → D ≠ DENOM_COUNT →
      (crypto_denoms D).crypto_type = t ∧ (crypto_denoms D).symbol = sy := by
  intro l
  induction l with
  | nil =>
    intro D hD hne
    rw [findDenomFrom] at hD
    exact absurd hD.symm hne
  | cons d ds ih =>
    intro D hD hne
    rw [findDenomFrom] at hD
    by_cases hmatch : (crypto_denoms d).crypto_type = t ∧ (crypto_denoms d).symbol = sy
    · rw [if_pos hmatch] at hD
      exact hD ▸ hmatch
    · rw [if_neg hmatch] at hD
      exact ih D hD hne

theorem findDenomFrom_sentinel (t : crypto_type_t) (sy : String) :
    ∀ l : List crypto_denom_t, (∀ d ∈ l, d ≠ DENOM_COUNT) →
      (findDenomFrom t sy l = DENOM_COUNT ↔
        ∀ d ∈ l, ¬((crypto_denoms d).crypto_type = t ∧
          (crypto_denoms d).symbol = sy)) := by
  intro l
  induction l with
  | nil =>
    intro hsent
    simp [findDenomFrom]
  | cons d ds ih =>
    intro hsent
    rw [findDenomFrom]
    by_cases hmatch : (crypto_denoms d).crypto_type = t ∧ (crypto_denoms d).symbol = sy
    · rw [if_pos hmatch]
      constructor
      · intro hd
        exact absurd hd (hsent d (List.mem_cons_self ..))
      · intro hall
        exact absurd hmatch (hall d (List.mem_cons_self ..))
    · rw [if_neg hmatch]
      rw [ih (fun x hx => hsent x (List.mem_cons_of_mem _ hx))]
      constructor
      · intro hall x hx
        rcases List.mem_cons.1 hx with hx1 | hx2
        · exact hx1 ▸ hmatch
        · exact hall x hx2
      · intro hall x hx
        exact hall x (List.mem_cons_of_mem _ hx)

/-- Claim C9.  Denomination resolution is keyed by family and symbol:
`crypto_get_denom_for_symbol t s` returns a valid denomination only if
its family equals `t` and its symbol equals `s` under exact comparison,
returns the `DENOM_COUNT` sentinel exactly when no denomination of
family `t` has symbol `s`, and a symbol shared by two families (SAT in
Bitcoin and Dogecoin, GWEI in Ethereum and Flare) resolves to the entry
of the family passed in. -/
theorem claim_c9_denom_resolution (t : crypto_type_t) (sy : String) :
    (∀ D : crypto_denom_t, crypto_get_denom_for_symbol t sy = D →
      crypto_is_valid_denom D = true →
      (crypto_denoms D).crypto_type = t ∧ (crypto_denoms D).symbol = sy) ∧
    (crypto_get_denom_for_symbol t sy = DENOM_COUNT ↔
      ∀ D ∈ denomEnumList,
        ¬((crypto_denoms D).crypto_type = t ∧ (crypto_denoms D).symbol = sy)) ∧
    crypto_get_denom_for_symbol CRYPTO_BITCOIN "SAT" = BTC_DENOM_SATOSHI ∧
    crypto_get_denom_for_symbol CRYPTO_DOGECOIN "SAT" = DOGE_DENOM_SATOSHI ∧
    crypto_get_denom_for_symbol CRYPTO_ETHEREUM "GWEI" = ETH_DENOM_GWEI ∧
    crypto_get_denom_for_symbol CRYPTO_FLARE "GWEI" = FLR_DENOM_GWEI := by
  refine ⟨?_, ?_, by decide, by decide, by decide, by decide⟩
  · intro D hD hvalid
    exact findDenomFrom_spec t sy denomEnumList D hD (of_decide_eq_true hvalid)
  · exact findDenomFrom_sentinel t sy denomEnumList (by decide)

/-! ### Claims C7 and C10 -/

/-- Claim C7, evaluated at the failing input.  The C function first
runs `mpz_set_str(result, str)` on the whole input string; with a dot
present GMP rejects the string and leaves the freshly initialized
result at zero, so the whole-number part is dropped.  For "1.5" the
function therefore returns precision 1 with magnitude 5 (i.e. the
scalar 0.5), not the magnitude 15 the claim (and the function's own
doc comment) require. -/
theorem claim_c7_scale_bug :
    crypto_scale_by_precision "1.5".toList = (1, 5) ∧
    crypto_scale_by_precision "1.5".toList ≠ (1, 15) ∧
    crypto_scale_by_precision "0.5".toList = (1, 5) ∧
    crypto_scale_by_precision "2".toList = (0, 2) := by decide

/-- Claim C10, evaluated at the failing input.  For "1.00" the zero
fraction makes the function return precision 0 with the magnitude left
as whatever `mpz_set_str` produced from the full string — which is 0,
not the whole part 1, because GMP rejects the embedded dot and leaves
the fresh result zero. -/
theorem claim_c10_zero_fraction_bug :
    crypto_scale_by_precision "1.00".toList = (0, 0) ∧
    crypto_scale_by_precision "1.00".toList ≠ (0, 1) ∧
    crypto_scale_by_precision "0.00".toList = (0, 0) := by decide

/-! ### Claim C6: the validator decides exactly the grammar -/

theorem dropWhile_nil_iff_all (p : Char → Bool) :
    ∀ l : List Char, l.dropWhile p = [] ↔ l.all p = true := by
  intro l
  induction l with
  | nil => simp
  | cons c cs ih =>
    rw [List.dropWhile_cons]
    by_cases hc : p c = true
    · rw [if_pos hc]
      simp [hc, ih]
    · rw [if_neg hc]
      simp [hc]

theorem validLoop_spec : ∀ (rest : List Char) (hd hg : Bool),
    validLoop rest hd hg = true ↔
      ((rest.takeWhile charOK).count '.' + (if hd then 1 else 0) ≤ 1 ∧
       (rest.dropWhile charOK).all wsValid = true ∧
       (hg = true ∨ (rest.takeWhile charOK).any Char.isDigit = true)) := by
  intro rest
  induction rest with
  | nil =>
    intro hd hg
    rw [validLoop]
    cases hd <;> cases hg <;> simp
  | cons c cs ih =>
    intro hd hg
    rw [validLoop]
    by_cases hdot : c = '.'
    · subst hdot
      rw [if_pos rfl]
      have htw : (('.' :: cs).takeWhile charOK) = '.' :: cs.takeWhile charOK := by
        rw [List.takeWhile_cons]
        simp [charOK]
      have hdw : (('.' :: cs).dropWhile charOK) = cs.dropWhile charOK := by
        rw [List.dropWhile_cons]
        simp [charOK]
      rw [htw, hdw]
      cases hd with
      | true =>
        rw [if_pos rfl]
        simp only [Bool.false_eq_true, false_iff]
        rintro ⟨h1, _, _⟩
        rw [List.count_cons] at h1
        simp at h1
      | false =>
        simp only [Bool.false_eq_true, if_false]
        rw [ih]
        refine and_congr ?_ (and_congr Iff.rfl ?_)
        · rw [List.count_cons]
          simp
        · rw [List.any_cons]
          simp [show ('.' : Char).isDigit = false from by decide]
    · rw [if_neg hdot]
      by_cases hdig : c.isDigit = true
      · rw [if_pos hdig]
        have hok : charOK c = true := by simp [charOK, hdig]
        have htw : ((c :: cs).takeWhile charOK) = c :: cs.takeWhile charOK := by
          rw [List.takeWhile_cons, if_pos hok]
        have hdw : ((c :: cs).dropWhile charOK) = cs.dropWhile charOK := by
          rw [List.dropWhile_cons, if_pos hok]
        rw [htw, hdw, ih]
        refine and_congr ?_ (and_congr Iff.rfl ?_)
        · rw [List.count_cons]
          simp [hdot]
        · rw [List.any_cons]
          simp [hdig]
      · rw [if_neg hdig]
        have hnok : charOK c = false := by
          simp [charOK]
          exact ⟨by simpa using hdig, hdot⟩
        have htw : ((c :: cs).takeWhile charOK) = [] := by
          rw [List.takeWhile_cons, if_neg (by simp [hnok])]
        have hdw : ((c :: cs).dropWhile charOK) = c :: cs := by
          rw [List.dropWhile_cons, if_neg (by simp [hnok])]
        rw [htw, hdw]
        by_cases hws : wsValid c = true
        · rw [if_pos hws]
          have hall : ((c :: cs).all wsValid = true) ↔ (cs.all wsValid = true) := by
            simp [hws]
          by_cases hnil : cs.dropWhile wsValid = []
          · rw [if_pos hnil]
            have hcs : cs.all wsValid = true := (dropWhile_nil_iff_all wsValid cs).1 hnil
            cases hd <;> cases hg <;> simp [hall, hcs, hws]
          · rw [if_neg hnil]
            have hcs : ¬ cs.all wsValid = true := by
              intro hc
              exact hnil ((dropWhile_nil_iff_all wsValid cs).2 hc)
            simp only [Bool.false_eq_true, false_iff]
            rintro ⟨_, h2, _⟩
            exact hcs (hall.1 h2)
        · rw [if_neg hws]
          simp only [Bool.false_eq_true, false_iff]
          rintro ⟨_, h2, _⟩
          rw [List.all_cons] at h2
          simp [hws] at h2

theorem charOK_not_ws {c : Char} (h : charOK c = true) : wsValid c = false := by
  simp only [charOK, Bool.or_eq_true, decide_eq_true_eq] at h
  rcases h with h | h
  · exact (isDigit_spread h).2.1
  · subst h
    decide

theorem ws_not_charOK {c : Char} (h : wsValid c = true) : charOK c = false := by
  simp only [wsValid, Bool.or_eq_true, decide_eq_true_eq] at h
  rcases h with ((h | h) | h) | h <;> subst h <;> decide

theorem takeWhile_mem_imp {p : Char → Bool} :
    ∀ {l : List Char} {x : Char}, x ∈ l.takeWhile p → p x = true := by
  intro l
  induction l with
  | nil => intro x hx; simp [List.takeWhile] at hx
  | cons c cs ih =>
    intro x hx
    rw [List.takeWhile_cons] at hx
    by_cases hc : p c = true
    · rw [if_pos hc] at hx
      rcases List.mem_cons.1 hx with hx1 | hx2
      · exact hx1 ▸ hc
      · exact ih hx2
    · rw [if_neg hc] at hx
      simp at hx

theorem dropWhile_head_false {p : Char → Bool} :
    ∀ (ll : List Char) {b : Char} {t : List Char},
      ll.dropWhile p = b :: t → p b = false := by
  intro ll
  induction ll with
  | nil =>
    intro b t h
    simp [List.dropWhile] at h
  | cons c cs ih =>
    intro b t h
    rw [List.dropWhile_cons] at h
    by_cases hc : p c = true
    · rw [if_pos hc] at h
      exact ih h
    · rw [if_neg hc] at h
      injection h with h1 _
      rw [← h1]
      simpa using hc

theorem trimEnd_cons_not_ws {c : Char} (h : wsValid c = false) (cs : List Char) :
    trimEnd (c :: cs) = c :: trimEnd cs := by
  rw [trimEnd]
  cases htc : trimEnd cs with
  | nil => simp [h]
  | cons x xs => rfl

theorem trimEnd_cons_of_ne_nil {c : Char} {cs : List Char}
    (h : trimEnd (c :: cs) ≠ []) : trimEnd (c :: cs) = c :: trimEnd cs := by
  rw [trimEnd] at h ⊢
  cases htc : trimEnd cs with
  | nil =>
    rw [htc] at h
    by_cases hws : wsValid c = true
    · simp [hws] at h
    · simp [hws]
  | cons x xs => rfl

theorem trimEnd_all_ws : ∀ {l : List Char}, l.all wsValid = true → trimEnd l = [] := by
  intro l
  induction l with
  | nil => intro _; rfl
  | cons c cs ih =>
    intro h
    rw [List.all_cons, Bool.and_eq_true] at h
    rw [trimEnd, ih h.2]
    simp [h.1]

theorem trimEnd_append_all_ws {l2 : List Char} (h : l2.all wsValid = true) :
    ∀ l1 : List Char, trimEnd (l1 ++ l2) = trimEnd l1 := by
  intro l1
  induction l1 with
  | nil =>
    rw [List.nil_append, trimEnd_all_ws h]
    rfl
  | cons c cs ih =>
    rw [List.cons_append, trimEnd, ih, trimEnd]

theorem trimEnd_no_ws : ∀ {l : List Char},
    (∀ x ∈ l, wsValid x = false) → trimEnd l = l := by
  intro l
  induction l with
  | nil => intro _; rfl
  | cons c cs ih =>
    intro h
    rw [trimEnd_cons_not_ws (h c (List.mem_cons_self ..)),
      ih fun x hx => h x (List.mem_cons_of_mem _ hx)]

theorem trimEnd_append_of_ne_nil {l2 : List Char} (h : trimEnd l2 ≠ []) :
    ∀ l1 : List Char, trimEnd (l1 ++ l2) = l1 ++ trimEnd l2 := by
  intro l1
  induction l1 with
  | nil => simp
  | cons c cs ih =>
    rw [List.cons_append, trimEnd, ih]
    obtain ⟨z, zs, hz⟩ : ∃ z zs, trimEnd l2 = z :: zs := by
      cases hzz : trimEnd l2 with
      | nil => exact absurd hzz h
      | cons z zs => exact ⟨z, zs, rfl⟩
    rw [hz]
    cases cs with
    | nil => rfl
    | cons a as => rfl

theorem mem_trimEnd_of_not_ws {x : Char} (hx : wsValid x = false) :
    ∀ {l : List Char}, x ∈ l → x ∈ trimEnd l := by
  intro l
  induction l with
  | nil => intro h; simp at h
  | cons c cs ih =>
    intro hm
    rw [trimEnd]
    cases htc : trimEnd cs with
    | nil =>
      rcases List.mem_cons.1 hm with hx1 | hm2
      · subst hx1
        simp [hx]
      · have hmem := ih hm2
        rw [htc] at hmem
        simp at hmem
    | cons y ys =>
      rcases List.mem_cons.1 hm with hx1 | hm2
      · subst hx1
        exact List.mem_cons_self ..
      · have hmem := ih hm2
        rw [htc] at hmem
        exact List.mem_cons_of_mem _ hmem

theorem valid_body_iff (d : Char) (ds : List Char) :
    (if ¬ d.isDigit = true ∧ d ≠ '.' then false
     else validLoop ds (decide (d = '.')) d.isDigit) = true ↔
      ((trimEnd (d :: ds)).any Char.isDigit = true ∧
       (trimEnd (d :: ds)).all charOK = true ∧
       (trimEnd (d :: ds)).count '.' ≤ 1) := by
  by_cases hOK : charOK d = true
  · have hcond : ¬(¬ d.isDigit = true ∧ d ≠ '.') := by
      simp only [charOK, Bool.or_eq_true, decide_eq_true_eq] at hOK
      rcases hOK with h | h
      · intro hc
        exact hc.1 h
      · intro hc
        exact hc.2 h
    rw [if_neg hcond, validLoop_spec]
    have hdnw : wsValid d = false := charOK_not_ws hOK
    rw [trimEnd_cons_not_ws hdnw]
    have htwOK : ∀ x ∈ ds.takeWhile charOK, charOK x = true :=
      fun x hx => takeWhile_mem_imp hx
    have htwNoWs : ∀ x ∈ ds.takeWhile charOK, wsValid x = false :=
      fun x hx => charOK_not_ws (htwOK x hx)
    constructor
    · rintro ⟨h1, h2, h3⟩
      have htds : trimEnd ds = ds.takeWhile charOK := by
        conv_lhs => rw [← List.takeWhile_append_dropWhile charOK ds]
        rw [trimEnd_append_all_ws h2, trimEnd_no_ws htwNoWs]
      rw [htds]
      refine ⟨?_, ?_, ?_⟩
      · rw [List.any_cons]
        rcases h3 with h3 | h3
        · simp [h3]
        · simp [h3]
      · rw [List.all_cons]
        simp only [hOK, Bool.true_and]
        rw [List.all_eq_true]
        exact htwOK
      · rw [List.count_cons]
        by_cases hdd : d = '.'
        · simp only [hdd] at h1 ⊢
          simp at h1 ⊢
          omega
        · simp only [hdd] at h1 ⊢
          simp [hdd] at h1 ⊢
          omega
    · rintro ⟨h1, h2, h3⟩
      rw [List.all_cons, Bool.and_eq_true] at h2
      have hallOK : ∀ x ∈ trimEnd ds, charOK x = true := by
        rw [← List.all_eq_true]
        exact h2.2
      have hBws : (ds.dropWhile charOK).all wsValid = true := by
        by_contra hB
        obtain ⟨b, B1, hBcons⟩ : ∃ b B1, ds.dropWhile charOK = b :: B1 := by
          cases hq : ds.dropWhile charOK with
          | nil =>
            rw [hq] at hB
            simp at hB
          | cons b B1 => exact ⟨b, B1, rfl⟩
        have hbNok : charOK b = false := dropWhile_head_false ds hBcons
        have hb_mem_ds : b ∈ ds :=
          (List.dropWhile_sublist charOK).subset (hBcons ▸ List.mem_cons_self ..)
        by_cases hbws : wsValid b = true
        · have hrest : ¬ (b :: B1).all wsValid = true := by
            rw [← hBcons]
            exact hB
          obtain ⟨y, ys, hy⟩ : ∃ y ys, (b :: B1).dropWhile wsValid = y :: ys := by
            cases hq : (b :: B1).dropWhile wsValid with
            | nil =>
              rw [dropWhile_nil_iff_all] at hq
              exact absurd hq hrest
            | cons y ys => exact ⟨y, ys, rfl⟩
          have hyws : wsValid y = false := dropWhile_head_false _ hy
          have hdw_b : (b :: B1).dropWhile wsValid = B1.dropWhile wsValid := by
            rw [List.dropWhile_cons, if_pos hbws]
          rw [hdw_b] at hy
          have hB1split : B1 = B1.takeWhile wsValid ++ (y :: ys) := by
            conv_lhs => rw [← List.takeWhile_append_dropWhile wsValid B1]
            rw [hy]
          have hdssplit : ds =
              (ds.takeWhile charOK ++ (b :: B1.takeWhile wsValid)) ++ (y :: ys) := by
            conv_lhs => rw [← List.takeWhile_append_dropWhile charOK ds]
            rw [hBcons]
            conv_lhs => rw [hB1split]
            simp [List.append_assoc]
          have htne : trimEnd (y :: ys) ≠ [] := by
            rw [trimEnd_cons_not_ws hyws]
            simp
          have hbtrim : b ∈ trimEnd ds := by
            rw [hdssplit, trimEnd_append_of_ne_nil htne]
            refine List.mem_append.2 (Or.inl ?_)
            exact List.mem_append.2 (Or.inr (List.mem_cons_self ..))
          have hcb : charOK b = true := hallOK b hbtrim
          rw [hbNok] at hcb
          simp at hcb
        · have hcb : charOK b = true :=
            hallOK b (mem_trimEnd_of_not_ws (by simpa using hbws) hb_mem_ds)
          rw [hbNok] at hcb
          simp at hcb
      have htds : trimEnd ds = ds.takeWhile charOK := by
        conv_lhs => rw [← List.takeWhile_append_dropWhile charOK ds]
        rw [trimEnd_append_all_ws hBws, trimEnd_no_ws htwNoWs]
      rw [htds] at h1 h3
      refine ⟨?_, hBws, ?_⟩
      · rw [List.count_cons] at h3
        by_cases hdd : d = '.'
        · simp only [hdd] at h3 ⊢
          simp at h3 ⊢
          omega
        · simp only [hdd] at h3 ⊢
          simp [hdd] at h3 ⊢
          omega
      · rw [List.any_cons, Bool.or_eq_true] at h1
        exact h1
  · have hOK2 : charOK d = false := by
      cases hx : charOK d with
      | false => rfl
      | true => exact absurd hx hOK
    have hcond : ¬ d.isDigit = true ∧ d ≠ '.' := by
      simp only [charOK, Bool.or_eq_false_iff, decide_eq_false_iff_not] at hOK2
      exact ⟨by simp [hOK2.1], hOK2.2⟩
    rw [if_pos hcond]
    simp only [Bool.false_eq_true, false_iff]
    rintro ⟨h1, h2, _⟩
    by_cases hte : trimEnd (d :: ds) = []
    · rw [hte] at h1
      simp at h1
    · rw [trimEnd_cons_of_ne_nil hte] at h2
      rw [List.all_cons, Bool.and_eq_true] at h2
      have : charOK d = true := h2.1
      exact hOK this

/-- Claim C6.  The validator decides exactly the decimal grammar:
`crypto_is_valid_decimal` agrees with the specification's grammar
(whitespace trimmed at both ends, one optional sign, at least one
digit, at most one dot, nothing else) on every string; in particular
"123.45.67" is invalid and "-.01" is valid. -/
theorem claim_c6_validator (s : List Char) :
    crypto_is_valid_decimal s = spec_is_valid_decimal s ∧
    crypto_is_valid_decimal "123.45.67".toList = false ∧
    crypto_is_valid_decimal "-.01".toList = true := by
  refine ⟨?_, by decide, by decide⟩
  rw [Bool.eq_iff_iff, crypto_is_valid_decimal, spec_is_valid_decimal]
  cases hu : s.dropWhile wsValid with
  | nil => simp [trimEnd]
  | cons c cs =>
    have hcnw : wsValid c = false := dropWhile_head_false s hu
    rw [trimEnd_cons_not_ws hcnw]
    dsimp only
    by_cases hsgn : c = '+' ∨ c = '-'
    · rw [if_pos hsgn, if_pos hsgn]
      cases cs with
      | nil =>
        simp [trimEnd]
      | cons d ds =>
        simp only [Bool.and_eq_true, decide_eq_true_eq]
        rw [show ((if ¬ d.isDigit = true ∧ d ≠ '.' then false
            else validLoop ds (decide (d = '.')) d.isDigit) = true ↔
              ((trimEnd (d :: ds)).any Char.isDigit = true ∧
               (trimEnd (d :: ds)).all charOK = true ∧
               (trimEnd (d :: ds)).count '.' ≤ 1)) from valid_body_iff d ds]
        constructor
        · rintro ⟨h1, h2, h3⟩
          exact ⟨⟨h1, h2⟩, h3⟩
        · rintro ⟨⟨h1, h2⟩, h3⟩
          exact ⟨h1, h2, h3⟩
    · rw [if_neg hsgn, if_neg hsgn]
      have hb := valid_body_iff c cs
      rw [trimEnd_cons_not_ws hcnw] at hb
      simp only [Bool.and_eq_true, decide_eq_true_eq]
      rw [hb]
      constructor
      · rintro ⟨h1, h2, h3⟩
        exact ⟨⟨h1, h2⟩, h3⟩
      · rintro ⟨⟨h1, h2⟩, h3⟩
        exact ⟨h1, h2, h3⟩

end Cryptomath
